import Mathlib

/-!
# Verification of the stack-algebra fixed-dimension matrix library

Shallow embedding of the library's linear-algebra core (src/algebra.rs),
its checked indexing (src/index.rs, src/lib.rs) and its fallible
collection constructor (src/new.rs), with element type `ℚ` standing for
the exact-arithmetic reading of the generic numeric parameter `T`.

A value of the Rust type `Matrix<M, N, T>` is modelled as a function
`Fin M → Fin N → ℚ` (Mathlib's `Matrix (Fin M) (Fin N) ℚ`) with
`A r c` the logical entry at row `r`, column `c` (the Rust `A[(r, c)]`,
which reads the column-major buffer at offset `c * M + r`).  The
column-major buffer itself is modelled explicitly (`as_slice`) for the
claims that are about raw offsets.

Imperative loops are translated into fuel-style structural recursions:
each Rust `for` loop over a range becomes a recursion whose fuel is the
number of remaining iterations, and each loop body becomes a pure state
transformer mirroring the source assignments one for one.
-/

namespace StackAlgebra

/-- The model of the Rust `Matrix<D, D, T>` square matrix with `T = ℚ`. -/
abbrev Mat (D : ℕ) : Type := Matrix (Fin D) (Fin D) ℚ

instance (D : ℕ) : DecidableEq (Mat D) :=
  inferInstanceAs (DecidableEq (Fin D → Fin D → ℚ))

/-- Model of `eye!(D, T)` (src/new.rs `Matrix::eye`): zero matrix with the
multiplicative identity written on the diagonal. -/
def eye (D : ℕ) : Mat D := fun i j => if i = j then 1 else 0

/-- Model of `Matrix::swap_rows` (src/lib.rs): exchange all entries of rows
`r1` and `r2`.  The indices here are `Fin D`, hence always in range, so the
source's in-range guard is always satisfied. -/
def swap_rows {D : ℕ} (A : Mat D) (r1 r2 : Fin D) : Mat D :=
  fun i j => A (Equiv.swap r1 r2 i) j

/-- Model of the source's row/column dot product (src/view.rs `Row::dot`):
`Σ_k row[k] * column[k]`. -/
def dot {D : ℕ} (row col : Fin D → ℚ) : ℚ := ∑ k, row k * col k

/-- Model of matrix multiplication (src/ops.rs `impl Mul`): entry `(i, j)` is
the dot product of row `i` of the left factor with column `j` of the right. -/
def mmul {D : ℕ} (A B : Mat D) : Mat D := fun i j => dot (fun k => A i k) (fun k => B k j)

theorem mmul_eq_mul {D : ℕ} (A B : Mat D) : mmul A B = A * B := by
  funext i j
  simp [mmul, dot, Matrix.mul_apply]

/-- One iteration of the `find_max_row` scan (src/algebra.rs): `r` is the next
row index to examine, `m` the best row so far, and the fuel counts remaining
iterations.  The comparison is the source's strict
`U[(max_row, diag)].abs() < U[(r, diag)].abs()`. -/
def find_max_row_aux {D : ℕ} (U : Mat D) (d : Fin D) : ℕ → ℕ → Fin D → Fin D
  | 0, _, m => m
  | fuel + 1, r, m =>
    if h : r < D then
      find_max_row_aux U d fuel (r + 1) (if |U m d| < |U ⟨r, h⟩ d| then ⟨r, h⟩ else m)
    else m

/-- Model of `find_max_row` (src/algebra.rs): scan rows `d..D` in increasing
order, keeping the first row whose `|U[row, d]|` is strictly larger than the
current best. -/
def find_max_row {D : ℕ} (U : Mat D) (d : Fin D) : Fin D :=
  find_max_row_aux U d (D - d.val) d.val d

/-- Model of the row-exchange step (src/algebra.rs `partial_pivot`): swap rows
`d` and `m` fully in `P` and `U`, and only the already-populated columns
`0..d` in `L`. -/
def pivot_step {D : ℕ} (P L U : Mat D) (d m : Fin D) : Mat D × Mat D × Mat D :=
  (swap_rows P d m,
   fun i j => if j.val < d.val then L (Equiv.swap d m i) j else L i j,
   swap_rows U d m)

/-- Model of `gauss_eliminate` (src/algebra.rs): for every row `r` below the
diagonal `d`, store the multiplier `U[r,d] / U[d,d]` into `L[r,d]` and
subtract that multiple of row `d` from row `r` of `U`.  The division is
unguarded, exactly as in the source. -/
def gauss_eliminate {D : ℕ} (L U : Mat D) (d : Fin D) : Mat D × Mat D :=
  (fun r c => if d < r ∧ c = d then U r d / U d d else L r c,
   fun r c => if d < r then U r c - U r d / U d d * U d c else U r c)

/-- The body of the `for d in 0..D` loop of `lu` (src/algebra.rs), acting on
the state `(P, L, U)` together with an instrumentation counter recording how
many *effective* row exchanges (`max_row ≠ d`) have been performed; the
counter does not influence `P`, `L` or `U`. -/
def lu_step {D : ℕ} (s : Mat D × Mat D × Mat D × ℕ) (d : Fin D) :
    Mat D × Mat D × Mat D × ℕ :=
  let m := find_max_row s.2.2.1 d
  let piv := pivot_step s.1 s.2.1 s.2.2.1 d m
  let elim := gauss_eliminate piv.2.1 piv.2.2 d
  (piv.1, elim.1, elim.2, if m = d then s.2.2.2 else s.2.2.2 + 1)

/-- The `for d in 0..D` loop of `lu`: fuel-style recursion, `d` is the next
diagonal index and the fuel the number of remaining iterations. -/
def lu_loop {D : ℕ} : ℕ → ℕ → Mat D × Mat D × Mat D × ℕ → Mat D × Mat D × Mat D × ℕ
  | 0, _, s => s
  | fuel + 1, d, s =>
    if h : d < D then lu_loop fuel (d + 1) (lu_step s ⟨d, h⟩) else s

/-- Model of `lu` (src/algebra.rs): starting from `P = I`, `L = I`, `U = A`,
run the pivot/eliminate loop over all diagonals and return `(L, U, P)` in the
source's order. -/
def lu {D : ℕ} (A : Mat D) : Mat D × Mat D × Mat D :=
  let s := lu_loop D 0 (eye D, eye D, A, 0)
  (s.2.1, s.2.2.1, s.1)

/-- The number of effective row exchanges (`max_row ≠ d`) performed while
computing `lu A`; instrumentation of the same loop, used to state the
determinant sign claim. -/
def lu_swaps {D : ℕ} (A : Mat D) : ℕ :=
  (lu_loop D 0 (eye D, eye D, A, 0)).2.2.2

/-- The `for i in 0..D` accumulation loop of `det` (src/algebra.rs):
`det = det * L[(i, i)] * U[(i, i)]` starting from `T::one()`. -/
def lu_diag_prod {D : ℕ} (A : Mat D) : ℚ :=
  let LU := lu A
  (List.finRange D).foldl (fun acc i => acc * LU.1 i i * LU.2.1 i i) 1

/-- Model of `det` (src/algebra.rs): the diagonal accumulation, negated
exactly when the *dimension* `D` is odd (`if D % 2 != 0`), as the source
does. -/
def det {D : ℕ} (A : Mat D) : ℚ :=
  if D % 2 ≠ 0 then -(lu_diag_prod A) else lu_diag_prod A

/-- The body of the `for i in (0..D).rev()` loop of `invert_upper_triangular`
(src/algebra.rs), after the zero-diagonal check has passed: scale the
diagonal entry of `U` and the columns `i..D` of row `i` of the accumulator
`I` by `coeff = 1 / U[i,i]`, then for every row `r` above `i` zero `U[r,i]`
and add `-U[r,i]` times (scaled) row `i` of the accumulator to its row `r`
in columns `i..D`. -/
def iut_step {D : ℕ} (U W : Mat D) (i : Fin D) : Mat D × Mat D :=
  (fun r c => if r = i ∧ c = i then U i i * (1 / U i i)
    else if r < i ∧ c = i then 0
    else U r c,
   fun r c => if r = i ∧ i ≤ c then W r c * (1 / U i i)
    else if r < i ∧ i ≤ c then W r c + -(U r i) * (W i c * (1 / U i i))
    else W r c)

/-- The `for i in (0..D).rev()` loop of `invert_upper_triangular`: the fuel
`k` means diagonals `k-1, k-2, ..., 0` remain to process; `i = k - 1` is
examined next.  Returns `none` on a zero diagonal entry, as the source
returns `None`. -/
def iut_loop {D : ℕ} : ℕ → Mat D × Mat D → Option (Mat D × Mat D)
  | 0, s => some s
  | k + 1, s =>
    if h : k < D then
      if s.1 ⟨k, h⟩ ⟨k, h⟩ = 0 then none
      else iut_loop k (iut_step s.1 s.2 ⟨k, h⟩)
    else iut_loop k s

/-- Model of `invert_upper_triangular` (src/algebra.rs): run the loop on
`(U, I)` with `I` seeded to the identity, returning the accumulator. -/
def invert_upper_triangular {D : ℕ} (U : Mat D) : Option (Mat D) :=
  (iut_loop D (U, eye D)).map Prod.snd

/-- The body of the `for i in 0..D` loop of `invert_lower_triangular`
(src/algebra.rs), after the unit-diagonal check has passed: for every row
`r` below `i`, zero `L[r,i]` and add `-L[r,i]` times row `i` of the
accumulator to its row `r` in columns `0..=i`. -/
def ilt_step {D : ℕ} (L W : Mat D) (i : Fin D) : Mat D × Mat D :=
  (fun r c => if i < r ∧ c = i then 0 else L r c,
   fun r c => if i < r ∧ c ≤ i then W r c + -(L r i) * W i c else W r c)

/-- The `for i in 0..D` loop of `invert_lower_triangular`: `i` is the next
diagonal, the fuel counts remaining iterations.  Returns `none` when a
diagonal entry differs from the multiplicative identity, as the source
returns `None`. -/
def ilt_loop {D : ℕ} : ℕ → ℕ → Mat D × Mat D → Option (Mat D × Mat D)
  | 0, _, s => some s
  | f + 1, i, s =>
    if h : i < D then
      if s.1 ⟨i, h⟩ ⟨i, h⟩ = 1 then ilt_loop f (i + 1) (ilt_step s.1 s.2 ⟨i, h⟩)
      else none
    else some s

/-- Model of `invert_lower_triangular` (src/algebra.rs). -/
def invert_lower_triangular {D : ℕ} (L : Mat D) : Option (Mat D) :=
  (ilt_loop D 0 (L, eye D)).map Prod.snd

/-- Model of `inv` (src/algebra.rs): decompose `P·A = L·U`, invert both
triangular factors, and return `U⁻¹ · L⁻¹ · P`; `None` when either
triangular inversion fails. -/
def inv {D : ℕ} (A : Mat D) : Option (Mat D) :=
  let LU := lu A
  match invert_lower_triangular LU.1, invert_upper_triangular LU.2.1 with
  | some Li, some Ui => some (mmul (mmul Ui Li) LU.2.2)
  | _, _ => none

/-! ### Properties of the pivot search -/

theorem find_max_row_aux_spec {D : ℕ} (U : Mat D) (d : Fin D) :
    ∀ fuel r (m : Fin D), r + fuel = D → d.val ≤ r → d ≤ m →
      (∀ j : Fin D, d ≤ j → j.val < r → |U j d| ≤ |U m d|) →
      (∀ j : Fin D, d ≤ j → j.val < m.val → |U j d| < |U m d|) →
      d ≤ find_max_row_aux U d fuel r m ∧
        (∀ j : Fin D, d ≤ j → |U j d| ≤ |U (find_max_row_aux U d fuel r m) d|) ∧
        (∀ j : Fin D, d ≤ j → j.val < (find_max_row_aux U d fuel r m).val →
          |U j d| < |U (find_max_row_aux U d fuel r m) d|) := by
  intro fuel
  induction fuel with
  | zero =>
    intro r m hr _ hdm hle hlt
    refine ⟨hdm, fun j hj => ?_, hlt⟩
    exact hle j hj (by omega)
  | succ fuel ih =>
    intro r m hr hdr hdm hle hlt
    have hrD : r < D := by omega
    rw [find_max_row_aux, dif_pos hrD]
    set m' : Fin D := if |U m d| < |U ⟨r, hrD⟩ d| then ⟨r, hrD⟩ else m with hm'
    refine ih (r + 1) m' (by omega) (by omega) ?_ ?_ ?_
    · by_cases hc : |U m d| < |U ⟨r, hrD⟩ d|
      · simp only [hm', if_pos hc]; exact hdr
      · simp only [hm', if_neg hc]; exact hdm
    · intro j hj hjr
      by_cases hc : |U m d| < |U ⟨r, hrD⟩ d|
      · simp only [hm', if_pos hc]
        rcases Nat.lt_or_ge j.val r with hjr' | hjr'
        · exact le_of_lt (lt_of_le_of_lt (hle j hj hjr') hc)
        · have hjv : j.val = r := by omega
          have : j = ⟨r, hrD⟩ := Fin.ext hjv
          rw [this]
      · simp only [hm', if_neg hc]
        rcases Nat.lt_or_ge j.val r with hjr' | hjr'
        · exact hle j hj hjr'
        · have hjv : j.val = r := by omega
          have : j = ⟨r, hrD⟩ := Fin.ext hjv
          rw [this]; exact not_lt.mp hc
    · intro j hj hjm
      by_cases hc : |U m d| < |U ⟨r, hrD⟩ d|
      · simp only [hm', if_pos hc] at hjm ⊢
        exact lt_of_le_of_lt (hle j hj hjm) hc
      · simp only [hm', if_neg hc] at hjm ⊢
        exact hlt j hj hjm

theorem find_max_row_spec {D : ℕ} (U : Mat D) (d : Fin D) :
    d ≤ find_max_row U d ∧
      (∀ j : Fin D, d ≤ j → |U j d| ≤ |U (find_max_row U d) d|) ∧
      (∀ j : Fin D, d ≤ j → j.val < (find_max_row U d).val →
        |U j d| < |U (find_max_row U d) d|) := by
  have hd : d.val ≤ D := le_of_lt d.isLt
  exact find_max_row_aux_spec U d (D - d.val) d.val d (by omega) (le_refl _) (le_refl _)
    (fun j hj hjr => absurd (lt_of_le_of_lt hj hjr) (lt_irrefl _))
    (fun j hj hjm => absurd (lt_of_le_of_lt hj hjm) (lt_irrefl _))

/-- **C8.** The pivot search of `lu` selects, among rows `d..D`, the first row
of maximal `|U[row, d]|`: the selected row is at least `d`, its magnitude
dominates every candidate row, and every earlier candidate row has strictly
smaller magnitude, so a later row of equal magnitude is never chosen. -/
theorem pivot_search_first_max {D : ℕ} (U : Mat D) (d : Fin D) :
    d ≤ find_max_row U d ∧
      (∀ r : Fin D, d ≤ r → |U r d| ≤ |U (find_max_row U d) d|) ∧
      (∀ r : Fin D, d ≤ r → r < find_max_row U d → |U r d| < |U (find_max_row U d) d|) := by
  obtain ⟨h1, h2, h3⟩ := find_max_row_spec U d
  exact ⟨h1, h2, fun r hr hrm => h3 r hr hrm⟩

/-! ### Loop invariants of the LU decomposition

Stage `d` describes the state at the head of the `for d in 0..D` loop of
`lu`: diagonals `0..d` have been pivoted and eliminated. -/

/-- At stage `d`, `L` is unit diagonal, zero above the diagonal, and still
zero below the diagonal in the not-yet-populated columns `c ≥ d`. -/
def LShape {D : ℕ} (d : ℕ) (L : Mat D) : Prop :=
  ∀ r c : Fin D, (r = c → L r c = 1) ∧ (r ≠ c → (r < c ∨ d ≤ c.val) → L r c = 0)

/-- At stage `d`, the already-processed columns `c < d` of `U` are zero below
the diagonal. -/
def UShape {D : ℕ} (d : ℕ) (U : Mat D) : Prop :=
  ∀ r c : Fin D, c.val < d → c < r → U r c = 0

/-- `P` is the row-permutation matrix of `σ`: row `r` has a `1` in column
`σ r` and zeros elsewhere. -/
def PIsPerm {D : ℕ} (σ : Equiv.Perm (Fin D)) (P : Mat D) : Prop :=
  ∀ r c : Fin D, P r c = if σ r = c then 1 else 0

/-- The product invariant `L·U = P·A`, written pointwise: row `r` of `P·A`
is row `σ r` of `A`. -/
def MainInv {D : ℕ} (A : Mat D) (σ : Equiv.Perm (Fin D)) (L U : Mat D) : Prop :=
  ∀ r c : Fin D, (L * U) r c = A (σ r) c

/-- The whole loop invariant, on the `(P, L, U, count)` state. -/
def LuInv {D : ℕ} (A : Mat D) (d : ℕ) (σ : Equiv.Perm (Fin D))
    (s : Mat D × Mat D × Mat D × ℕ) : Prop :=
  PIsPerm σ s.1 ∧ LShape d s.2.1 ∧ UShape d s.2.2.1 ∧ MainInv A σ s.2.1 s.2.2.1

theorem swap_val_ge_iff {D : ℕ} {d m : Fin D} (hdm : d.val ≤ m.val) (k : Fin D) :
    d.val ≤ (Equiv.swap d m k).val ↔ d.val ≤ k.val := by
  rcases eq_or_ne k d with rfl | hkd
  · rw [Equiv.swap_apply_left]
    exact ⟨fun _ => le_refl _, fun _ => hdm⟩
  · rcases eq_or_ne k m with rfl | hkm
    · rw [Equiv.swap_apply_right]
      exact ⟨fun _ => hdm, fun _ => le_refl _⟩
    · rw [Equiv.swap_apply_of_ne_of_ne hkd hkm]

theorem swap_apply_of_val_lt {D : ℕ} {d m k : Fin D} (hdm : d.val ≤ m.val)
    (hk : k.val < d.val) : Equiv.swap d m k = k := by
  refine Equiv.swap_apply_of_ne_of_ne (fun h => ?_) (fun h => ?_)
  · subst h; omega
  · subst h; omega

/-- The pivot step preserves the stage-`d` invariant, updates the permutation
by the transposition `(d m)`, and puts the column maximum on the diagonal. -/
theorem pivot_step_inv {D : ℕ} (A : Mat D) (σ : Equiv.Perm (Fin D))
    (P L U : Mat D) (d : Fin D) (hP : PIsPerm σ P) (hL : LShape d.val L)
    (hU : UShape d.val U) (hM : MainInv A σ L U) :
    PIsPerm (σ * Equiv.swap d (find_max_row U d)) (pivot_step P L U d (find_max_row U d)).1 ∧
      LShape d.val (pivot_step P L U d (find_max_row U d)).2.1 ∧
      UShape d.val (pivot_step P L U d (find_max_row U d)).2.2 ∧
      MainInv A (σ * Equiv.swap d (find_max_row U d))
        (pivot_step P L U d (find_max_row U d)).2.1
        (pivot_step P L U d (find_max_row U d)).2.2 ∧
      (∀ r : Fin D, d.val ≤ r.val →
        |(pivot_step P L U d (find_max_row U d)).2.2 r d| ≤
          |(pivot_step P L U d (find_max_row U d)).2.2 d d|) := by
  set m := find_max_row U d with hm
  obtain ⟨hdm, hmax, _⟩ := find_max_row_spec U d
  have hdm' : d.val ≤ m.val := hdm
  set sw := Equiv.swap d m with hsw
  have hswsw : ∀ k : Fin D, sw (sw k) = k := fun k => Equiv.swap_apply_self d m k
  have hge : ∀ k : Fin D, d.val ≤ (sw k).val ↔ d.val ≤ k.val := fun k => swap_val_ge_iff hdm' k
  have hfix : ∀ k : Fin D, k.val < d.val → sw k = k := fun k hk => swap_apply_of_val_lt hdm' hk
  refine ⟨?_, ?_, ?_, ?_, ?_⟩
  · -- P' is the permutation matrix of σ ∘ sw
    intro r c
    show P (sw r) c = _
    rw [hP (sw r) c]
    rfl
  · -- L keeps its shape: only sub-diagonal parts of rows ≥ d move
    intro r c
    constructor
    · intro hrc
      subst hrc
      show (if r.val < d.val then L (sw r) r else L r r) = 1
      by_cases hc : r.val < d.val
      · rw [if_pos hc, hfix r hc]
        exact (hL r r).1 rfl
      · rw [if_neg hc]
        exact (hL r r).1 rfl
    · intro hrc hor
      show (if c.val < d.val then L (sw r) c else L r c) = 0
      by_cases hc : c.val < d.val
      · rw [if_pos hc]
        rcases hor with hlt | hge'
        · -- r < c < d, so row r is fixed by the swap
          have hr : r.val < d.val := lt_trans hlt hc
          rw [hfix r hr]
          exact (hL r c).2 hrc (Or.inl hlt)
        · omega
      · rw [if_neg hc]
        exact (hL r c).2 hrc (Or.inr (by omega))
  · -- U keeps its shape: processed columns stay zero below the diagonal
    intro r c hc hcr
    show U (sw r) c = 0
    refine hU (sw r) c hc ?_
    show c.val < (sw r).val
    by_cases hr : d.val ≤ r.val
    · have := (hge r).mpr hr
      omega
    · rw [hfix r (by omega)]
      exact hcr
  · -- the product invariant, by reindexing the sum along the swap
    intro r c
    have hre : ∀ f : Fin D → ℚ, (∑ k, f k) = ∑ k, f (sw k) :=
      fun f => (Equiv.sum_comp sw f).symm
    rw [Matrix.mul_apply, hre]
    have hterm : ∀ k : Fin D,
        (pivot_step P L U d m).2.1 r (sw k) * (pivot_step P L U d m).2.2 (sw k) c =
          L (sw r) k * U k c := by
      intro k
      show (if (sw k).val < d.val then L (sw r) (sw k) else L r (sw k)) * U (sw (sw k)) c
          = L (sw r) k * U k c
      rw [hswsw k]
      by_cases hk : (sw k).val < d.val
      · rw [if_pos hk]
        have hkk : sw k = k := by
          have h1 : k = sw (sw k) := (hswsw k).symm
          rw [h1, hfix (sw k) hk, hfix (sw k) hk]
        rw [hkk]
      · rw [if_neg hk]
        have hk' : d.val ≤ k.val := (hge k).mp (by omega)
        -- in columns ≥ d both L-entries are Kronecker deltas
        have h1 : L r (sw k) = if r = sw k then 1 else 0 := by
          by_cases h : r = sw k
          · rw [if_pos h]; exact (hL r (sw k)).1 h
          · rw [if_neg h]
            exact (hL r (sw k)).2 h (Or.inr (by omega))
        have h2 : L (sw r) k = if sw r = k then 1 else 0 := by
          by_cases h : sw r = k
          · rw [if_pos h]; exact (hL (sw r) k).1 h
          · rw [if_neg h]
            exact (hL (sw r) k).2 h (Or.inr hk')
        have h3 : (r = sw k) ↔ (sw r = k) := by
          constructor
          · intro h; rw [h, hswsw]
          · intro h; rw [← h, hswsw]
        rw [h1, h2]
        by_cases h : r = sw k
        · rw [if_pos h, if_pos (h3.mp h)]
        · rw [if_neg h, if_neg (fun hh => h (h3.mpr hh))]
    calc (∑ k, (pivot_step P L U d m).2.1 r (sw k) * (pivot_step P L U d m).2.2 (sw k) c)
        = ∑ k, L (sw r) k * U k c := Finset.sum_congr rfl fun k _ => hterm k
      _ = (L * U) (sw r) c := (Matrix.mul_apply).symm
      _ = A (σ (sw r)) c := hM (sw r) c
      _ = A ((σ * sw) r) c := rfl
  · -- after the swap the diagonal dominates its column tail
    intro r hr
    show |U (sw r) d| ≤ |U (sw d) d|
    rw [hsw, Equiv.swap_apply_left]
    exact hmax (sw r) ((swap_val_ge_iff hdm' r).mpr hr)

/-- The elimination step moves the invariant from stage `d` to stage `d + 1`.
The hypothesis `hmax` (the diagonal dominates its column tail, established by
the pivot step) makes column `d` of `U` vanish below the diagonal even when
the pivot is exactly zero: in that case every eliminated entry is already
zero and the junk quotient `0 / 0 = 0` multiplies a zero row. -/
theorem gauss_eliminate_inv {D : ℕ} (A : Mat D) (σ : Equiv.Perm (Fin D))
    (L U : Mat D) (d : Fin D) (hL : LShape d.val L) (hU : UShape d.val U)
    (hM : MainInv A σ L U) (hmax : ∀ r : Fin D, d.val ≤ r.val → |U r d| ≤ |U d d|) :
    LShape (d.val + 1) (gauss_eliminate L U d).1 ∧
      UShape (d.val + 1) (gauss_eliminate L U d).2 ∧
      MainInv A σ (gauss_eliminate L U d).1 (gauss_eliminate L U d).2 := by
  refine ⟨?_, ?_, ?_⟩
  · -- L gains the multipliers in column d and keeps its triangular shape
    intro r c
    constructor
    · intro hrc
      subst hrc
      show (if d < r ∧ r = d then U r d / U d d else L r r) = 1
      rw [if_neg (fun h : d < r ∧ r = d => absurd (h.2 ▸ h.1) (lt_irrefl d))]
      exact (hL r r).1 rfl
    · intro hrc hor
      show (if d < r ∧ c = d then U r d / U d d else L r c) = 0
      rw [if_neg ?_]
      · refine (hL r c).2 hrc ?_
        rcases hor with h | h
        · exact Or.inl h
        · exact Or.inr (by omega)
      · rintro ⟨h1, rfl⟩
        rcases hor with h | h
        · exact absurd (lt_trans h1 h) (lt_irrefl _)
        · omega
  · -- processed columns of U, now including column d, vanish below the diagonal
    intro r c hc hcr
    show (if d < r then U r c - U r d / U d d * U d c else U r c) = 0
    by_cases hr : d < r
    · rw [if_pos hr]
      rcases Nat.lt_or_ge c.val d.val with hcd | hcd
      · rw [hU r c hcd hcr, hU d c hcd (by omega)]
        ring
      · have hcd' : c = d := Fin.ext (by omega)
        subst hcd'
        by_cases hdd : U c c = 0
        · have h0 : U r c = 0 := by
            have := hmax r (by omega)
            rw [hdd, abs_zero] at this
            exact abs_nonpos_iff.mp this
          rw [h0, hdd]
          ring
        · rw [div_mul_cancel₀ _ hdd]
          ring
    · rw [if_neg hr]
      exact hU r c (by omega) hcr
  · -- the product L·U is untouched by the elimination row operations
    intro r c
    rw [← hM r c]
    rw [Matrix.mul_apply, Matrix.mul_apply]
    by_cases hr : d < r
    · have hterm : ∀ k : Fin D,
          (gauss_eliminate L U d).1 r k * (gauss_eliminate L U d).2 k c =
            L r k * U k c + (if k = d then U r d / U d d * U d c else 0)
              - (if k = r then U r d / U d d * U d c else 0) := by
        intro k
        show (if d < r ∧ k = d then U r d / U d d else L r k) *
            (if d < k then U k c - U k d / U d d * U d c else U k c) = _
        by_cases hkd : k = d
        · subst hkd
          rw [if_pos ⟨hr, rfl⟩, if_neg (lt_irrefl k), if_pos rfl,
            if_neg (show ¬ k = r from fun h => absurd hr (h ▸ lt_irrefl k)),
            (hL r k).2 (ne_of_gt hr) (Or.inr (le_refl _))]
          ring
        · by_cases hkr : k = r
          · subst hkr
            rw [if_neg (fun h : d < k ∧ k = d => hkd h.2), if_pos hr, (hL k k).1 rfl,
              if_neg hkd, if_pos rfl]
            ring
          · rw [if_neg (fun h : d < r ∧ k = d => hkd h.2), if_neg hkd, if_neg hkr]
            by_cases hdk : d < k
            · rw [if_pos hdk,
                (hL r k).2 (fun h => hkr h.symm) (Or.inr (Nat.le_of_lt hdk))]
              ring
            · rw [if_neg hdk]
              ring
      calc (∑ k, (gauss_eliminate L U d).1 r k * (gauss_eliminate L U d).2 k c)
          = ∑ k, (L r k * U k c + (if k = d then U r d / U d d * U d c else 0)
              - (if k = r then U r d / U d d * U d c else 0)) :=
            Finset.sum_congr rfl fun k _ => hterm k
        _ = ((∑ k, L r k * U k c) + ∑ k, (if k = d then U r d / U d d * U d c else 0))
              - ∑ k, (if k = r then U r d / U d d * U d c else 0) := by
            rw [Finset.sum_sub_distrib, Finset.sum_add_distrib]
        _ = ∑ k, L r k * U k c := by
            rw [Finset.sum_ite_eq' Finset.univ d fun _ => U r d / U d d * U d c,
              Finset.sum_ite_eq' Finset.univ r fun _ => U r d / U d d * U d c]
            simp
    · refine Finset.sum_congr rfl fun k _ => ?_
      show (if d < r ∧ k = d then U r d / U d d else L r k) *
          (if d < k then U k c - U k d / U d d * U d c else U k c) = L r k * U k c
      rw [if_neg (fun h : d < r ∧ k = d => hr h.1)]
      by_cases hdk : d < k
      · rw [if_pos hdk,
          (hL r k).2 (fun h => absurd hdk (h ▸ hr)) (Or.inr (Nat.le_of_lt hdk))]
        ring
      · rw [if_neg hdk]

theorem eye_eq_one {D : ℕ} : eye D = (1 : Mat D) := by
  funext i j
  rw [Matrix.one_apply]
  rfl

/-- One loop iteration moves the invariant from stage `d` to stage `d + 1`. -/
theorem lu_step_inv {D : ℕ} (A : Mat D) (σ : Equiv.Perm (Fin D))
    (s : Mat D × Mat D × Mat D × ℕ) (d : Fin D) (h : LuInv A d.val σ s) :
    LuInv A (d.val + 1) (σ * Equiv.swap d (find_max_row s.2.2.1 d)) (lu_step s d) := by
  obtain ⟨hP, hL, hU, hM⟩ := h
  obtain ⟨hP', hL', hU', hM', hmax⟩ := pivot_step_inv A σ s.1 s.2.1 s.2.2.1 d hP hL hU hM
  obtain ⟨hL'', hU'', hM''⟩ :=
    gauss_eliminate_inv A (σ * Equiv.swap d (find_max_row s.2.2.1 d))
      (pivot_step s.1 s.2.1 s.2.2.1 d (find_max_row s.2.2.1 d)).2.1
      (pivot_step s.1 s.2.1 s.2.2.1 d (find_max_row s.2.2.1 d)).2.2
      d hL' hU' hM' hmax
  exact ⟨hP', hL'', hU'', hM''⟩

/-- The loop invariant propagates from any stage to the final stage `D`. -/
theorem lu_loop_inv {D : ℕ} (A : Mat D) :
    ∀ fuel dd (σ : Equiv.Perm (Fin D)) s, dd + fuel = D → LuInv A dd σ s →
      ∃ σ' : Equiv.Perm (Fin D), LuInv A D σ' (lu_loop fuel dd s) := by
  intro fuel
  induction fuel with
  | zero =>
    intro dd σ s hdd h
    exact ⟨σ, by rw [lu_loop]; exact hdd ▸ h⟩
  | succ fuel ih =>
    intro dd σ s hdd h
    have hD : dd < D := by omega
    rw [lu_loop, dif_pos hD]
    exact ih (dd + 1) _ (lu_step s ⟨dd, hD⟩) (by omega)
      (lu_step_inv A σ s ⟨dd, hD⟩ h)

/-- The final-state facts about `lu A = (L, U, P)`: some permutation `σ`
realises `P`, `L` is unit lower triangular, `U` is upper triangular, and
`L·U` is the `σ`-row-permutation of `A`. -/
theorem lu_spec {D : ℕ} (A : Mat D) :
    ∃ σ : Equiv.Perm (Fin D), PIsPerm σ (lu A).2.2 ∧ LShape D (lu A).1 ∧
      UShape D (lu A).2.1 ∧ MainInv A σ (lu A).1 (lu A).2.1 := by
  have h0 : LuInv A 0 1 (eye D, eye D, A, 0) := by
    refine ⟨fun r c => rfl, fun r c => ⟨fun h => if_pos h, fun h _ => if_neg h⟩,
      fun r c hc _ => absurd hc (Nat.not_lt_zero _), fun r c => ?_⟩
    show (eye D * A) r c = A ((1 : Equiv.Perm (Fin D)) r) c
    rw [eye_eq_one, one_mul]
    rfl
  obtain ⟨σ, h⟩ := lu_loop_inv A D 0 1 (eye D, eye D, A, 0) (by omega) h0
  exact ⟨σ, h.1, h.2.1, h.2.2.1, h.2.2.2⟩

/-- **C1.** For every square matrix `A`, the triple `(L, U, P) = lu A`
satisfies `P·A = L·U` exactly, with the source's own matrix product. -/
theorem lu_correct {D : ℕ} (A : Mat D) :
    mmul (lu A).2.2 A = mmul (lu A).1 (lu A).2.1 := by
  obtain ⟨σ, hP, _, _, hM⟩ := lu_spec A
  rw [mmul_eq_mul, mmul_eq_mul]
  funext r c
  show ((lu A).2.2 * A) r c = ((lu A).1 * (lu A).2.1) r c
  rw [hM r c, Matrix.mul_apply]
  have hterm : ∀ k : Fin D, (lu A).2.2 r k * A k c = if σ r = k then A k c else 0 := by
    intro k
    rw [hP r k]
    by_cases h : σ r = k
    · rw [if_pos h, if_pos h, one_mul]
    · rw [if_neg h, if_neg h, zero_mul]
  rw [Finset.sum_congr rfl fun k _ => hterm k, Finset.sum_ite_eq Finset.univ (σ r) fun k => A k c,
    if_pos (Finset.mem_univ _)]

/-- **C3.** For every square matrix `A` and `(L, U, P) = lu A`: `L` is unit
lower triangular (unit diagonal, zero above the diagonal), `U` is upper
triangular (zero below the diagonal), and `P` is a permutation matrix (each
entry is `0` or `1`, with exactly one `1` in every row and in every
column). -/
theorem lu_shapes {D : ℕ} (A : Mat D) :
    (∀ i : Fin D, (lu A).1 i i = 1) ∧
      (∀ r c : Fin D, r < c → (lu A).1 r c = 0) ∧
      (∀ r c : Fin D, c < r → (lu A).2.1 r c = 0) ∧
      (∀ r c : Fin D, (lu A).2.2 r c = 0 ∨ (lu A).2.2 r c = 1) ∧
      (∀ r : Fin D, ∃! c : Fin D, (lu A).2.2 r c = 1) ∧
      (∀ c : Fin D, ∃! r : Fin D, (lu A).2.2 r c = 1) := by
  obtain ⟨σ, hP, hL, hU, _⟩ := lu_spec A
  refine ⟨fun i => (hL i i).1 rfl,
    fun r c hrc => (hL r c).2 (ne_of_lt hrc) (Or.inl hrc),
    fun r c hcr => hU r c c.isLt hcr, fun r c => ?_, fun r => ?_, fun c => ?_⟩
  · rw [hP r c]
    by_cases h : σ r = c
    · exact Or.inr (if_pos h)
    · exact Or.inl (if_neg h)
  · refine ⟨σ r, ?_, fun c hc => ?_⟩
    · show (lu A).2.2 r (σ r) = 1
      rw [hP r (σ r), if_pos rfl]
    · replace hc : (lu A).2.2 r c = 1 := hc
      by_contra hne
      rw [hP r c, if_neg (fun h => hne h.symm)] at hc
      exact zero_ne_one hc
  · refine ⟨σ.symm c, ?_, fun r hr => ?_⟩
    · show (lu A).2.2 (σ.symm c) c = 1
      rw [hP (σ.symm c) c, if_pos (σ.apply_symm_apply c)]
    · replace hr : (lu A).2.2 r c = 1 := hr
      by_contra hne
      have hσ : ¬ σ r = c := fun h => hne (by rw [← h, σ.symm_apply_apply])
      rw [hP r c, if_neg hσ] at hr
      exact zero_ne_one hr

/-- Witness for C3: concrete instances of the shape statements on the
exchange-pivoting input `[[0, 1], [1, 0]]`, with the order hypotheses
discharged at concrete indices. -/
theorem lu_shapes_witness :
    ((0 : Fin 2) < 1 ∧ (lu (!![(0 : ℚ), 1; 1, 0])).1 0 1 = 0) ∧
      ((1 : Fin 2) > 0 ∧ (lu (!![(0 : ℚ), 1; 1, 0])).2.1 1 0 = 0) ∧
      (lu (!![(0 : ℚ), 1; 1, 0])).1 0 0 = 1 ∧
      (∃! c : Fin 2, (lu (!![(0 : ℚ), 1; 1, 0])).2.2 0 c = 1) :=
  ⟨⟨by decide, (lu_shapes (!![(0 : ℚ), 1; 1, 0])).2.1 0 1 (by decide)⟩,
    ⟨by decide, (lu_shapes (!![(0 : ℚ), 1; 1, 0])).2.2.1 1 0 (by decide)⟩,
    (lu_shapes (!![(0 : ℚ), 1; 1, 0])).1 0,
    (lu_shapes (!![(0 : ℚ), 1; 1, 0])).2.2.2.2.1 0⟩

/-- Witness for C8: on a column with a tie of magnitudes (`|1| = |-1|`), the
scan keeps the first maximal row, here row 0, and its magnitude dominates
row 1. -/
theorem pivot_search_first_max_witness :
    ((0 : Fin 2) ≤ find_max_row (!![(1 : ℚ), 0; -1, 0]) 0 ∧
      |(!![(1 : ℚ), 0; -1, 0] : Mat 2) 1 0| ≤
        |(!![(1 : ℚ), 0; -1, 0] : Mat 2) (find_max_row (!![(1 : ℚ), 0; -1, 0]) 0) 0|) ∧
      find_max_row (!![(1 : ℚ), 0; -1, 0]) 0 = 0 :=
  ⟨⟨(pivot_search_first_max (!![(1 : ℚ), 0; -1, 0]) 0).1,
    (pivot_search_first_max (!![(1 : ℚ), 0; -1, 0]) 0).2.1 1 (by decide)⟩,
   by decide⟩

/-! ### The determinant claims -/

set_option maxRecDepth 100000 in
/-- **C2**, evaluated at the failing input: on the exchange matrix
`[[0, 1], [1, 0]]` the code performs exactly one row swap and the diagonal
product is `1`, so the claimed formula `(-1)^swaps · Π diag(L) · Π diag(U)`
yields `-1` (the true determinant), while `det` — whose sign correction
depends only on the parity of `D` — returns `1`.  Likewise `det` returns
`-1` on the 1×1 identity matrix, whose determinant is `1` and whose
elimination performs no swap. -/
theorem det_sign_divergence :
    det (!![(0 : ℚ), 1; 1, 0]) = 1 ∧
      lu_swaps (!![(0 : ℚ), 1; 1, 0]) = 1 ∧
      lu_diag_prod (!![(0 : ℚ), 1; 1, 0]) = 1 ∧
      (-1 : ℚ) ^ lu_swaps (!![(0 : ℚ), 1; 1, 0]) *
          lu_diag_prod (!![(0 : ℚ), 1; 1, 0]) = -1 ∧
      det (!![(1 : ℚ)]) = -1 ∧ lu_swaps (!![(1 : ℚ)]) = 0 ∧
      (-1 : ℚ) ^ lu_swaps (!![(1 : ℚ)]) * lu_diag_prod (!![(1 : ℚ)]) = 1 := by
  with_unfolding_all decide

set_option maxRecDepth 100000 in
/-- **C5.** The spec's determinant fixtures, exactly over `ℚ`:
`det [[6,2,3],[1,1,1],[0,4,9]] = 24` and `det [[1,2],[4,8]] = 0`. -/
theorem det_fixtures :
    det (!![(6 : ℚ), 2, 3; 1, 1, 1; 0, 4, 9]) = 24 ∧
      det (!![(1 : ℚ), 2; 4, 8]) = 0 := by
  with_unfolding_all decide

/-! ### Failure conditions of the triangular inversions -/

/-- The upper-inversion loop fails exactly when a remaining diagonal entry of
the original matrix is zero; the loop never modifies diagonal entries in
not-yet-processed columns, recorded by the hypothesis. -/
theorem iut_loop_none_iff {D : ℕ} (U₀ : Mat D) :
    ∀ k (s : Mat D × Mat D), k ≤ D →
      (∀ r c : Fin D, c.val < k → s.1 r c = U₀ r c) →
      (iut_loop k s = none ↔ ∃ i : Fin D, i.val < k ∧ U₀ i i = 0) := by
  intro k
  induction k with
  | zero =>
    intro s _ _
    rw [iut_loop]
    constructor
    · intro h
      exact Option.noConfusion h
    · rintro ⟨i, hi, _⟩
      omega
  | succ k ih =>
    intro s hk hcols
    have hD : k < D := by omega
    rw [iut_loop, dif_pos hD]
    have hdiag : s.1 ⟨k, hD⟩ ⟨k, hD⟩ = U₀ ⟨k, hD⟩ ⟨k, hD⟩ := hcols _ _ (Nat.lt_succ_self k)
    by_cases hz : U₀ ⟨k, hD⟩ ⟨k, hD⟩ = 0
    · rw [if_pos (hdiag.trans hz)]
      exact ⟨fun _ => ⟨⟨k, hD⟩, Nat.lt_succ_self k, hz⟩, fun _ => rfl⟩
    · rw [if_neg (fun h => hz (hdiag.symm.trans h))]
      have hcols' : ∀ r c : Fin D, c.val < k →
          (iut_step s.1 s.2 ⟨k, hD⟩).1 r c = U₀ r c := by
        intro r c hc
        show (if r = ⟨k, hD⟩ ∧ c = ⟨k, hD⟩ then _ else
          if r < ⟨k, hD⟩ ∧ c = ⟨k, hD⟩ then _ else s.1 r c) = U₀ r c
        have hci : ¬ c = ⟨k, hD⟩ := by
          intro h
          rw [h] at hc
          exact absurd hc (lt_irrefl k)
        rw [if_neg (fun h => hci h.2), if_neg (fun h => hci h.2)]
        exact hcols r c (Nat.lt_succ_of_lt hc)
      rw [ih (iut_step s.1 s.2 ⟨k, hD⟩) (by omega) hcols']
      constructor
      · rintro ⟨i, hi, h0⟩
        exact ⟨i, Nat.lt_succ_of_lt hi, h0⟩
      · rintro ⟨i, hi, h0⟩
        rcases Nat.lt_or_ge i.val k with h | h
        · exact ⟨i, h, h0⟩
        · have : i = ⟨k, hD⟩ := Fin.ext (show i.val = k by omega)
          rw [this] at h0
          exact absurd h0 hz

/-- The lower-inversion loop fails exactly when a remaining diagonal entry of
the original matrix differs from the multiplicative identity. -/
theorem ilt_loop_none_iff {D : ℕ} (L₀ : Mat D) :
    ∀ fuel i (s : Mat D × Mat D), i + fuel = D →
      (∀ j : Fin D, i ≤ j.val → s.1 j j = L₀ j j) →
      (ilt_loop fuel i s = none ↔ ∃ j : Fin D, i ≤ j.val ∧ L₀ j j ≠ 1) := by
  intro fuel
  induction fuel with
  | zero =>
    intro i s hi _
    rw [ilt_loop]
    constructor
    · intro h
      exact Option.noConfusion h
    · rintro ⟨j, hj, _⟩
      have := j.isLt
      omega
  | succ fuel ih =>
    intro i s hi hdiags
    have hD : i < D := by omega
    rw [ilt_loop, dif_pos hD]
    have hdiag : s.1 ⟨i, hD⟩ ⟨i, hD⟩ = L₀ ⟨i, hD⟩ ⟨i, hD⟩ := hdiags _ (le_refl _)
    by_cases h1 : L₀ ⟨i, hD⟩ ⟨i, hD⟩ = 1
    · rw [if_pos (hdiag.trans h1)]
      have hdiags' : ∀ j : Fin D, i + 1 ≤ j.val →
          (ilt_step s.1 s.2 ⟨i, hD⟩).1 j j = L₀ j j := by
        intro j hj
        show (if (⟨i, hD⟩ : Fin D) < j ∧ j = ⟨i, hD⟩ then 0 else s.1 j j) = L₀ j j
        rw [if_neg (fun h : (⟨i, hD⟩ : Fin D) < j ∧ j = ⟨i, hD⟩ => by
          rw [h.2] at hj
          exact absurd hj (show ¬ i + 1 ≤ i by omega))]
        exact hdiags j (by omega)
      rw [ih (i + 1) (ilt_step s.1 s.2 ⟨i, hD⟩) (by omega) hdiags']
      constructor
      · rintro ⟨j, hj, h0⟩
        exact ⟨j, by omega, h0⟩
      · rintro ⟨j, hj, h0⟩
        rcases Nat.lt_or_ge j.val (i + 1) with h | h
        · have : j = ⟨i, hD⟩ := Fin.ext (show j.val = i by omega)
          rw [this] at h0
          exact absurd h1 h0
        · exact ⟨j, h, h0⟩
    · rw [if_neg (fun h => h1 (hdiag.symm.trans h))]
      exact ⟨fun _ => ⟨⟨i, hD⟩, le_refl _, fun h => h1 h⟩, fun _ => rfl⟩

theorem eye_apply {D : ℕ} (r c : Fin D) : eye D r c = if r = c then 1 else 0 := rfl

/-- On the success path the upper-inversion loop maintains: processed columns
of `U` are identity columns, untouched accumulator columns are identity
columns, and `accumulator · U₀` equals the current `U`.  At fuel `0` the
accumulator is therefore a left inverse of `U₀`. -/
theorem iut_loop_some_spec {D : ℕ} (U₀ : Mat D)
    (htri : ∀ r c : Fin D, c < r → U₀ r c = 0) :
    ∀ k (s : Mat D × Mat D), k ≤ D →
      (∀ r c : Fin D, s.1 r c =
        if k ≤ c.val then (if r = c then 1 else if r.val < c.val then 0 else U₀ r c)
        else U₀ r c) →
      (∀ r c : Fin D, c.val < k → s.2 r c = eye D r c) →
      (∀ r c : Fin D, (s.2 * U₀) r c = s.1 r c) →
      ∀ p, iut_loop k s = some p → p.2 * U₀ = 1 := by
  intro k
  induction k with
  | zero =>
    intro s _ hsh _ hmain p hp
    rw [iut_loop] at hp
    obtain rfl : s = p := Option.some.inj hp
    funext r c
    rw [Matrix.one_apply, hmain r c, hsh r c, if_pos (Nat.zero_le _)]
    by_cases hrc : r = c
    · rw [if_pos hrc, if_pos hrc]
    · rw [if_neg hrc, if_neg hrc]
      rcases Nat.lt_or_ge r.val c.val with h | h
      · rw [if_pos h]
      · rw [if_neg (by omega)]
        have hv : c.val < r.val := by
          have : r.val ≠ c.val := fun hh => hrc (Fin.ext hh)
          omega
        exact htri r c hv
  | succ k ih =>
    intro s hk hsh hsupp hmain p hp
    have hD : k < D := by omega
    rw [iut_loop, dif_pos hD] at hp
    set i : Fin D := ⟨k, hD⟩ with hidef
    have hiv : i.val = k := rfl
    by_cases hz : s.1 i i = 0
    · rw [if_pos hz] at hp
      exact Option.noConfusion hp
    rw [if_neg hz] at hp
    have hUii : s.1 i i = U₀ i i := by
      rw [hsh i i, if_neg (show ¬ k + 1 ≤ i.val from by omega)]
    have hz' : U₀ i i ≠ 0 := fun h => hz (hUii.trans h)
    -- row i of the current U is `U₀ i i` at the diagonal and zero elsewhere
    have hUic : ∀ c : Fin D, ¬ c = i → s.1 i c = 0 := by
      intro c hc
      rw [hsh i c]
      have hcv : c.val ≠ k := fun h => hc (Fin.ext h)
      rcases Nat.lt_or_ge c.val k with h | h
      · rw [if_neg (by omega)]
        exact htri i c (show c.val < i.val from h)
      · rw [if_pos (by omega), if_neg (fun hh => hc hh.symm), if_pos (by omega)]
    -- untouched accumulator columns below the pivot are identity columns
    have hWzero : ∀ j : Fin D, ¬ i ≤ j → s.2 i j = 0 := by
      intro j hj
      have hj' : ¬ k ≤ j.val := hj
      rw [hsupp i j (by omega), eye_apply, if_neg (fun h => hj (le_of_eq h))]
    -- the scaled pivot row of the accumulator
    have hWrow_i : ∀ j : Fin D,
        (iut_step s.1 s.2 i).2 i j = s.2 i j * (1 / s.1 i i) := by
      intro j
      show (if i = i ∧ i ≤ j then s.2 i j * (1 / s.1 i i)
        else if i < i ∧ i ≤ j then s.2 i j + -(s.1 i i) * (s.2 i j * (1 / s.1 i i))
        else s.2 i j) = _
      by_cases hj : i ≤ j
      · rw [if_pos ⟨rfl, hj⟩]
      · rw [if_neg (fun h => hj h.2), if_neg (fun h => hj h.2), hWzero j hj, zero_mul]
    refine ih (iut_step s.1 s.2 i) (by omega) ?_ ?_ ?_ p hp
    · -- the shape of U after processing column k
      intro r c
      by_cases hc : c = i
      · subst hc
        show (if r = i ∧ i = i then s.1 i i * (1 / s.1 i i)
          else if r < i ∧ i = i then 0 else s.1 r i) = _
        rw [if_pos (show k ≤ i.val from le_refl k)]
        by_cases hr : r = i
        · subst hr
          rw [if_pos ⟨rfl, rfl⟩, if_pos rfl, hUii]
          exact mul_one_div_cancel hz'
        · rw [if_neg (fun h => hr h.1), if_neg hr]
          by_cases hri : r < i
          · rw [if_pos ⟨hri, rfl⟩, if_pos (show r.val < i.val from hri)]
          · have hri' : ¬ r.val < i.val := hri
            rw [if_neg (fun h => hri h.1), if_neg hri', hsh r i,
              if_neg (show ¬ k + 1 ≤ i.val from by omega)]
      · show (if r = i ∧ c = i then s.1 i i * (1 / s.1 i i)
          else if r < i ∧ c = i then 0 else s.1 r c) = _
        rw [if_neg (fun h => hc h.2), if_neg (fun h => hc h.2), hsh r c]
        have hcv : c.val ≠ k := fun h => hc (Fin.ext h)
        by_cases h : k + 1 ≤ c.val
        · rw [if_pos h, if_pos (show k ≤ c.val from by omega)]
        · rw [if_neg h, if_neg (show ¬ k ≤ c.val from by omega)]
    · -- accumulator columns below k are still identity columns
      intro r c hck
      show (if r = i ∧ i ≤ c then s.2 r c * (1 / s.1 i i)
        else if r < i ∧ i ≤ c then s.2 r c + -(s.1 r i) * (s.2 i c * (1 / s.1 i i))
        else s.2 r c) = _
      have hic : ¬ i ≤ c := show ¬ k ≤ c.val from by omega
      rw [if_neg (fun h => hic h.2), if_neg (fun h => hic h.2)]
      exact hsupp r c (by omega)
    · -- the product invariant
      intro r c
      rcases Nat.lt_trichotomy r.val k with hrk | hrk | hrk
      · -- rows above the pivot: a full row operation on the accumulator
        have hri : ¬ r = i := fun h => by
          rw [h] at hrk
          exact absurd hrk (lt_irrefl k)
        have hWrow : ∀ j : Fin D, (iut_step s.1 s.2 i).2 r j
            = s.2 r j + -(s.1 r i) * (s.2 i j * (1 / s.1 i i)) := by
          intro j
          show (if r = i ∧ i ≤ j then s.2 r j * (1 / s.1 i i)
            else if r < i ∧ i ≤ j then s.2 r j + -(s.1 r i) * (s.2 i j * (1 / s.1 i i))
            else s.2 r j) = _
          rw [if_neg (fun h => hri h.1)]
          by_cases hj : i ≤ j
          · rw [if_pos ⟨show r.val < i.val from hrk, hj⟩]
          · rw [if_neg (fun h => hj h.2), hWzero j hj]
            ring
        have hcalc : ((iut_step s.1 s.2 i).2 * U₀) r c
            = s.1 r c + -(s.1 r i) * (1 / s.1 i i) * s.1 i c := by
          rw [Matrix.mul_apply]
          calc (∑ j, (iut_step s.1 s.2 i).2 r j * U₀ j c)
              = ∑ j, (s.2 r j * U₀ j c
                  + -(s.1 r i) * (1 / s.1 i i) * (s.2 i j * U₀ j c)) :=
                Finset.sum_congr rfl fun j _ => by rw [hWrow j]; ring
            _ = (∑ j, s.2 r j * U₀ j c)
                  + -(s.1 r i) * (1 / s.1 i i) * ∑ j, s.2 i j * U₀ j c := by
                rw [Finset.sum_add_distrib, Finset.mul_sum]
            _ = s.1 r c + -(s.1 r i) * (1 / s.1 i i) * s.1 i c := by
                rw [show (∑ j, s.2 r j * U₀ j c) = (s.2 * U₀) r c from
                    (Matrix.mul_apply).symm,
                  show (∑ j, s.2 i j * U₀ j c) = (s.2 * U₀) i c from
                    (Matrix.mul_apply).symm, hmain r c, hmain i c]
        rw [hcalc]
        by_cases hc : c = i
        · subst hc
          show s.1 r i + -(s.1 r i) * (1 / s.1 i i) * s.1 i i =
            (if r = i ∧ i = i then s.1 i i * (1 / s.1 i i)
              else if r < i ∧ i = i then 0 else s.1 r i)
          rw [if_neg (fun h => hri h.1),
            if_pos ⟨show r.val < i.val from hrk, rfl⟩, mul_assoc,
            one_div_mul_cancel hz]
          ring
        · show _ = (if r = i ∧ c = i then s.1 i i * (1 / s.1 i i)
            else if r < i ∧ c = i then 0 else s.1 r c)
          rw [if_neg (fun h => hc h.2), if_neg (fun h => hc h.2), hUic c hc]
          ring
      · -- the pivot row itself: scaled by the reciprocal of the diagonal
        have hr : r = i := Fin.ext hrk
        subst hr
        have hcalc : ((iut_step s.1 s.2 i).2 * U₀) i c
            = 1 / s.1 i i * s.1 i c := by
          rw [Matrix.mul_apply]
          calc (∑ j, (iut_step s.1 s.2 i).2 i j * U₀ j c)
              = ∑ j, 1 / s.1 i i * (s.2 i j * U₀ j c) :=
                Finset.sum_congr rfl fun j _ => by rw [hWrow_i j]; ring
            _ = 1 / s.1 i i * ∑ j, s.2 i j * U₀ j c := by rw [Finset.mul_sum]
            _ = 1 / s.1 i i * s.1 i c := by
                rw [show (∑ j, s.2 i j * U₀ j c) = (s.2 * U₀) i c from
                    (Matrix.mul_apply).symm, hmain i c]
        rw [hcalc]
        by_cases hc : c = i
        · subst hc
          show 1 / s.1 i i * s.1 i i =
            (if i = i ∧ i = i then s.1 i i * (1 / s.1 i i)
              else if i < i ∧ i = i then 0 else s.1 i i)
          rw [if_pos ⟨rfl, rfl⟩]
          ring
        · show _ = (if i = i ∧ c = i then s.1 i i * (1 / s.1 i i)
            else if i < i ∧ c = i then 0 else s.1 i c)
          rw [if_neg (fun h => hc h.2), if_neg (fun h => hc h.2),
            hUic c (fun h => hc h)]
          ring
      · -- rows below the pivot are untouched in both matrices
        have hri : ¬ r = i := fun h => by
          rw [h] at hrk
          exact absurd hrk (lt_irrefl k)
        have hrlt : ¬ r < i := show ¬ r.val < k from by omega
        have hWrow : ∀ j : Fin D, (iut_step s.1 s.2 i).2 r j = s.2 r j := by
          intro j
          show (if r = i ∧ i ≤ j then s.2 r j * (1 / s.1 i i)
            else if r < i ∧ i ≤ j then s.2 r j + -(s.1 r i) * (s.2 i j * (1 / s.1 i i))
            else s.2 r j) = _
          rw [if_neg (fun h => hri h.1), if_neg (fun h => hrlt h.1)]
        show _ = (if r = i ∧ c = i then s.1 i i * (1 / s.1 i i)
          else if r < i ∧ c = i then 0 else s.1 r c)
        rw [if_neg (fun h => hri h.1), if_neg (fun h => hrlt h.1), Matrix.mul_apply]
        calc (∑ j, (iut_step s.1 s.2 i).2 r j * U₀ j c)
            = ∑ j, s.2 r j * U₀ j c :=
              Finset.sum_congr rfl fun j _ => by rw [hWrow j]
          _ = s.1 r c := by
              rw [show (∑ j, s.2 r j * U₀ j c) = (s.2 * U₀) r c from
                  (Matrix.mul_apply).symm, hmain r c]

/-- On the success path the lower-inversion loop maintains the mirror-image
invariants of `iut_loop_some_spec`, processing columns left to right. -/
theorem ilt_loop_some_spec {D : ℕ} (L₀ : Mat D)
    (htri : ∀ r c : Fin D, r < c → L₀ r c = 0) :
    ∀ fuel i (s : Mat D × Mat D), i + fuel = D →
      (∀ r c : Fin D, s.1 r c = if c.val < i ∧ c < r then 0 else L₀ r c) →
      (∀ j : Fin D, j.val < i → L₀ j j = 1) →
      (∀ r c : Fin D, i ≤ c.val → s.2 r c = eye D r c) →
      (∀ r c : Fin D, (s.2 * L₀) r c = s.1 r c) →
      ∀ p, ilt_loop fuel i s = some p → p.2 * L₀ = 1 := by
  intro fuel
  induction fuel with
  | zero =>
    intro i s hif hsh hdiag _ hmain p hp
    rw [ilt_loop] at hp
    obtain rfl : s = p := Option.some.inj hp
    funext r c
    rw [Matrix.one_apply, hmain r c, hsh r c]
    by_cases hrc : r = c
    · rw [if_neg (fun h => by rw [hrc] at h; exact absurd h.2 (lt_irrefl c)),
        if_pos hrc, hrc]
      exact hdiag c (by omega)
    · rw [if_neg hrc]
      rcases Nat.lt_trichotomy c.val r.val with h | h | h
      · rw [if_pos ⟨by omega, h⟩]
      · exact absurd (Fin.ext h.symm) hrc
      · rw [if_neg (fun hh => absurd hh.2 (by omega))]
        exact htri r c h
  | succ fuel ih =>
    intro i s hif hsh hdiag hsupp hmain p hp
    have hD : i < D := by omega
    rw [ilt_loop, dif_pos hD] at hp
    set t : Fin D := ⟨i, hD⟩ with htdef
    have htv : t.val = i := rfl
    by_cases h1 : s.1 t t = 1
    swap
    · rw [if_neg h1] at hp
      exact Option.noConfusion hp
    rw [if_pos h1] at hp
    have hLtt : L₀ t t = 1 := by
      rw [hsh t t, if_neg (fun h => absurd h.2 (lt_irrefl t))] at h1
      exact h1
    -- row t of the current L is an identity row
    have hLrow_t : ∀ c : Fin D, s.1 t c = eye D t c := by
      intro c
      rw [hsh t c, eye_apply]
      rcases Nat.lt_trichotomy c.val t.val with h | h | h
      · rw [if_pos ⟨by omega, h⟩, if_neg (fun hh => by rw [hh] at h; omega)]
      · have hc : t = c := Fin.ext h.symm
        rw [if_neg (fun hh => by rw [← hc] at hh; exact absurd hh.2 (lt_irrefl t)),
          if_pos hc, ← hc]
        exact hLtt
      · rw [if_neg (fun hh => absurd hh.2 (by omega)),
          if_neg (fun hh => by rw [hh] at h; omega)]
        exact htri t c h
    refine ih (i + 1) (ilt_step s.1 s.2 t) (by omega) ?_ ?_ ?_ ?_ p hp
    · -- shape of L after zeroing column i below the diagonal
      intro r c
      by_cases hc : c = t
      · subst hc
        show (if t < r ∧ t = t then 0 else s.1 r t) = _
        by_cases hr : t < r
        · rw [if_pos ⟨hr, rfl⟩, if_pos ⟨by omega, hr⟩]
        · rw [if_neg (fun h => hr h.1), hsh r t,
            if_neg (fun h => absurd h.1 (by omega)),
            if_neg (fun h => hr h.2)]
      · show (if t < r ∧ c = t then 0 else s.1 r c) = _
        rw [if_neg (fun h => hc h.2), hsh r c]
        have hcv : c.val ≠ i := fun h => hc (Fin.ext h)
        by_cases h : c.val < i ∧ c < r
        · rw [if_pos h, if_pos ⟨by omega, h.2⟩]
        · rw [if_neg h, if_neg (fun hh => h ⟨by omega, hh.2⟩)]
    · -- processed diagonal entries of the original matrix are 1
      intro j hj
      rcases Nat.lt_or_ge j.val i with h | h
      · exact hdiag j h
      · have : j = t := Fin.ext (by omega)
        rw [this]
        exact hLtt
    · -- accumulator columns at or beyond i+1 are still identity columns
      intro r c hc
      show (if t < r ∧ c ≤ t then s.2 r c + -(s.1 r t) * s.2 t c else s.2 r c) = _
      rw [if_neg (fun h => absurd h.2 (show ¬ c ≤ t from by omega))]
      exact hsupp r c (by omega)
    · -- the product invariant
      intro r c
      by_cases hr : t < r
      · have hWrow : ∀ j : Fin D, (ilt_step s.1 s.2 t).2 r j
            = s.2 r j + -(s.1 r t) * s.2 t j := by
          intro j
          show (if t < r ∧ j ≤ t then s.2 r j + -(s.1 r t) * s.2 t j else s.2 r j) = _
          by_cases hj : j ≤ t
          · rw [if_pos ⟨hr, hj⟩]
          · rw [if_neg (fun h => hj h.2), hsupp t j (by omega), eye_apply,
              if_neg (fun h => hj (le_of_eq h.symm))]
            ring
        have hcalc : ((ilt_step s.1 s.2 t).2 * L₀) r c
            = s.1 r c + -(s.1 r t) * s.1 t c := by
          rw [Matrix.mul_apply]
          calc (∑ j, (ilt_step s.1 s.2 t).2 r j * L₀ j c)
              = ∑ j, (s.2 r j * L₀ j c + -(s.1 r t) * (s.2 t j * L₀ j c)) :=
                Finset.sum_congr rfl fun j _ => by rw [hWrow j]; ring
            _ = (∑ j, s.2 r j * L₀ j c) + -(s.1 r t) * ∑ j, s.2 t j * L₀ j c := by
                rw [Finset.sum_add_distrib, Finset.mul_sum]
            _ = s.1 r c + -(s.1 r t) * s.1 t c := by
                rw [show (∑ j, s.2 r j * L₀ j c) = (s.2 * L₀) r c from
                    (Matrix.mul_apply).symm,
                  show (∑ j, s.2 t j * L₀ j c) = (s.2 * L₀) t c from
                    (Matrix.mul_apply).symm, hmain r c, hmain t c]
        rw [hcalc]
        by_cases hc : c = t
        · subst hc
          show s.1 r t + -(s.1 r t) * s.1 t t =
            (if t < r ∧ t = t then 0 else s.1 r t)
          rw [if_pos ⟨hr, rfl⟩, h1]
          ring
        · show _ = (if t < r ∧ c = t then 0 else s.1 r c)
          rw [if_neg (fun h => hc h.2), hLrow_t c, eye_apply,
            if_neg (fun h => hc h.symm)]
          ring
      · -- rows at or above the pivot row are untouched
        have hWrow : ∀ j : Fin D, (ilt_step s.1 s.2 t).2 r j = s.2 r j := by
          intro j
          show (if t < r ∧ j ≤ t then s.2 r j + -(s.1 r t) * s.2 t j else s.2 r j) = _
          rw [if_neg (fun h => hr h.1)]
        show _ = (if t < r ∧ c = t then 0 else s.1 r c)
        rw [if_neg (fun h => hr h.1), Matrix.mul_apply]
        calc (∑ j, (ilt_step s.1 s.2 t).2 r j * L₀ j c)
            = ∑ j, s.2 r j * L₀ j c :=
              Finset.sum_congr rfl fun j _ => by rw [hWrow j]
          _ = s.1 r c := by
              rw [show (∑ j, s.2 r j * L₀ j c) = (s.2 * L₀) r c from
                  (Matrix.mul_apply).symm, hmain r c]

theorem invert_upper_triangular_none_iff {D : ℕ} (U : Mat D) :
    invert_upper_triangular U = none ↔ ∃ i : Fin D, U i i = 0 := by
  rw [invert_upper_triangular, Option.map_eq_none',
    iut_loop_none_iff U D (U, eye D) (le_refl D) (fun r c _ => rfl)]
  constructor
  · rintro ⟨i, _, h⟩
    exact ⟨i, h⟩
  · rintro ⟨i, h⟩
    exact ⟨i, i.isLt, h⟩

theorem invert_upper_triangular_inverse {D : ℕ} (U : Mat D)
    (htri : ∀ r c : Fin D, c < r → U r c = 0) (W : Mat D)
    (h : invert_upper_triangular U = some W) : W * U = 1 ∧ U * W = 1 := by
  rw [invert_upper_triangular, Option.map_eq_some'] at h
  obtain ⟨p, hp, hW⟩ := h
  have h1 : p.2 * U = 1 :=
    iut_loop_some_spec U htri D (U, eye D) (le_refl D)
      (fun r c => (if_neg (show ¬ D ≤ c.val from by omega)).symm)
      (fun r c _ => rfl)
      (fun r c => by rw [eye_eq_one, one_mul])
      p hp
  rw [hW] at h1
  exact ⟨h1, Matrix.mul_eq_one_comm.mp h1⟩

theorem invert_lower_triangular_none_iff {D : ℕ} (L : Mat D) :
    invert_lower_triangular L = none ↔ ∃ i : Fin D, L i i ≠ 1 := by
  rw [invert_lower_triangular, Option.map_eq_none',
    ilt_loop_none_iff L D 0 (L, eye D) (by omega) (fun j _ => rfl)]
  constructor
  · rintro ⟨i, _, h⟩
    exact ⟨i, h⟩
  · rintro ⟨i, h⟩
    exact ⟨i, Nat.zero_le _, h⟩

theorem invert_lower_triangular_inverse {D : ℕ} (L : Mat D)
    (htri : ∀ r c : Fin D, r < c → L r c = 0) (W : Mat D)
    (h : invert_lower_triangular L = some W) : W * L = 1 ∧ L * W = 1 := by
  rw [invert_lower_triangular, Option.map_eq_some'] at h
  obtain ⟨p, hp, hW⟩ := h
  have h1 : p.2 * L = 1 :=
    ilt_loop_some_spec L htri D 0 (L, eye D) (by omega)
      (fun r c => (if_neg (fun hh => absurd hh.1 (Nat.not_lt_zero _))).symm)
      (fun j hj => absurd hj (Nat.not_lt_zero _))
      (fun r c _ => rfl)
      (fun r c => by rw [eye_eq_one, one_mul])
      p hp
  rw [hW] at h1
  exact ⟨h1, Matrix.mul_eq_one_comm.mp h1⟩

/-- **C6.** `invert_upper_triangular` fails exactly when a diagonal entry is
zero; `invert_lower_triangular` fails exactly when a diagonal entry differs
from the multiplicative identity; on success, for a triangular input, the
returned accumulator is the inverse: `U · result = I`, `L · result = I`. -/
theorem triangular_inversion_spec {D : ℕ} (U L : Mat D) :
    (invert_upper_triangular U = none ↔ ∃ i : Fin D, U i i = 0) ∧
      (invert_lower_triangular L = none ↔ ∃ i : Fin D, L i i ≠ 1) ∧
      ((∀ r c : Fin D, c < r → U r c = 0) →
        ∀ W, invert_upper_triangular U = some W → mmul U W = eye D) ∧
      ((∀ r c : Fin D, r < c → L r c = 0) →
        ∀ W, invert_lower_triangular L = some W → mmul L W = eye D) := by
  refine ⟨invert_upper_triangular_none_iff U, invert_lower_triangular_none_iff L,
    fun htri W h => ?_, fun htri W h => ?_⟩
  · rw [mmul_eq_mul, eye_eq_one]
    exact (invert_upper_triangular_inverse U htri W h).2
  · rw [mmul_eq_mul, eye_eq_one]
    exact (invert_lower_triangular_inverse L htri W h).2

/-- Recover an `Option` equation from executable projections: used by the
concrete witnesses, where the two projections evaluate by `decide`. -/
theorem option_eq_some_of_getD {α : Type} (o : Option α) (d w : α)
    (h1 : o.isSome = true) (h2 : o.getD d = w) : o = some w := by
  cases o with
  | none => exact Bool.noConfusion h1
  | some a => rw [Option.getD_some] at h2; rw [h2]

set_option maxRecDepth 200000 in
/-- Witness for C6: the spec's fixture `U = [[2,4,6],[0,-1,-8],[0,0,96]]` is
inverted to `[[1/2,2,13/96],[0,-1,-1/12],[0,0,1/96]]` and multiplies back to
the identity, while matrices with a zero diagonal entry (upper) or a non-unit
diagonal entry (lower) are rejected. -/
theorem triangular_inversion_spec_witness :
    ((∀ r c : Fin 3, c < r → (!![(2 : ℚ), 4, 6; 0, -1, -8; 0, 0, 96] : Mat 3) r c = 0) ∧
      mmul (!![(2 : ℚ), 4, 6; 0, -1, -8; 0, 0, 96])
        (!![(1 : ℚ)/2, 2, 13/96; 0, -1, -1/12; 0, 0, 1/96]) = eye 3) ∧
      invert_upper_triangular (!![(2 : ℚ), 4; 0, 0]) = none ∧
      invert_lower_triangular (!![(1 : ℚ), 0; 8, 2]) = none :=
  ⟨⟨by decide,
    (triangular_inversion_spec (!![(2 : ℚ), 4, 6; 0, -1, -8; 0, 0, 96]) (eye 3)).2.2.1
      (by decide) (!![(1 : ℚ)/2, 2, 13/96; 0, -1, -1/12; 0, 0, 1/96])
      (option_eq_some_of_getD _ (eye 3) _ (by with_unfolding_all decide)
        (by with_unfolding_all decide))⟩,
    (triangular_inversion_spec (!![(2 : ℚ), 4; 0, 0]) (eye 2)).1.mpr
      ⟨1, by with_unfolding_all decide⟩,
    (triangular_inversion_spec (eye 2) (!![(1 : ℚ), 0; 8, 2])).2.1.mpr
      ⟨1, by with_unfolding_all decide⟩⟩

/-- `P·A = L·U` restated with Mathlib's product. -/
theorem lu_correct_mul {D : ℕ} (A : Mat D) :
    (lu A).2.2 * A = (lu A).1 * (lu A).2.1 := by
  have h := lu_correct A
  rwa [mmul_eq_mul, mmul_eq_mul] at h

/-- The returned `P` is invertible: its transpose is a two-sided inverse. -/
theorem lu_P_det_ne_zero {D : ℕ} (A : Mat D) : ((lu A).2.2).det ≠ 0 := by
  obtain ⟨σ, hP, _, _, _⟩ := lu_spec A
  have hPQ : (lu A).2.2 * (Matrix.of fun r c : Fin D => if σ c = r then (1 : ℚ) else 0)
      = 1 := by
    funext r c
    rw [Matrix.mul_apply, Matrix.one_apply]
    have hterm : ∀ k : Fin D,
        (lu A).2.2 r k * (Matrix.of fun r c : Fin D => if σ c = r then (1 : ℚ) else 0) k c
          = if σ r = k ∧ σ c = k then 1 else 0 := by
      intro k
      rw [hP r k, Matrix.of_apply]
      by_cases h1 : σ r = k <;> by_cases h2 : σ c = k <;> simp [h1, h2]
    rw [Finset.sum_congr rfl fun k _ => hterm k]
    by_cases hrc : r = c
    · subst hrc
      rw [if_pos rfl]
      have h2 : ∀ k : Fin D, (if σ r = k ∧ σ r = k then (1 : ℚ) else 0)
          = if σ r = k then 1 else 0 := by
        intro k
        by_cases h : σ r = k <;> simp [h]
      rw [Finset.sum_congr rfl fun k _ => h2 k,
        Finset.sum_ite_eq Finset.univ (σ r) fun _ => (1 : ℚ),
        if_pos (Finset.mem_univ _)]
    · rw [if_neg hrc]
      have h2 : ∀ k : Fin D, (if σ r = k ∧ σ c = k then (1 : ℚ) else 0) = 0 := by
        intro k
        rw [if_neg]
        rintro ⟨h1, h2⟩
        exact hrc (σ.injective (h1.trans h2.symm))
      rw [Finset.sum_congr rfl fun k _ => h2 k, Finset.sum_const_zero]
  intro h0
  have hdet := congrArg Matrix.det hPQ
  rw [Matrix.det_mul, h0, zero_mul, Matrix.det_one] at hdet
  exact zero_ne_one hdet

/-- **C7.** `inv` is `U⁻¹·L⁻¹·P` computed from `lu`; it returns `none`
exactly when one of the triangular inversions fails; every successful result
is an inverse (`A · inv(A) = I`), and on every invertible input `inv`
succeeds with an inverse. -/
theorem inv_spec {D : ℕ} (A : Mat D) :
    (inv A = none ↔ (invert_lower_triangular (lu A).1 = none ∨
        invert_upper_triangular (lu A).2.1 = none)) ∧
      (∀ Li Ui, invert_lower_triangular (lu A).1 = some Li →
        invert_upper_triangular (lu A).2.1 = some Ui →
        inv A = some (mmul (mmul Ui Li) (lu A).2.2)) ∧
      (∀ B, inv A = some B → mmul A B = eye D) ∧
      (∀ B, mmul A B = eye D → ∃ C, inv A = some C ∧ mmul A C = eye D) := by
  obtain ⟨hLdiag, hLup, hUlow, _, _, _⟩ := lu_shapes A
  have hpart2 : ∀ Li Ui, invert_lower_triangular (lu A).1 = some Li →
      invert_upper_triangular (lu A).2.1 = some Ui →
      inv A = some (mmul (mmul Ui Li) (lu A).2.2) := by
    intro Li Ui hLi hUi
    simp [inv, hLi, hUi]
  have hpart3 : ∀ B, inv A = some B → mmul A B = eye D := by
    intro B hB
    cases hL : invert_lower_triangular (lu A).1 with
    | none => simp [inv, hL] at hB
    | some Li =>
      cases hU : invert_upper_triangular (lu A).2.1 with
      | none => simp [inv, hL, hU] at hB
      | some Ui =>
        simp [inv, hL, hU] at hB
        obtain ⟨hLinv, _⟩ :=
          invert_lower_triangular_inverse (lu A).1 (fun r c h => hLup r c h) Li hL
        obtain ⟨hUinv, _⟩ :=
          invert_upper_triangular_inverse (lu A).2.1 (fun r c h => hUlow r c h) Ui hU
        rw [← hB, mmul_eq_mul, mmul_eq_mul, mmul_eq_mul, eye_eq_one,
          ← Matrix.mul_eq_one_comm]
        have hassoc : Ui * Li * (lu A).2.2 * A = Ui * (Li * ((lu A).2.2 * A)) := by
          rw [Matrix.mul_assoc (Ui * Li), Matrix.mul_assoc]
        rw [hassoc, lu_correct_mul A, ← Matrix.mul_assoc Li, hLinv, Matrix.one_mul]
        exact hUinv
  refine ⟨?_, hpart2, hpart3, ?_⟩
  · cases hL : invert_lower_triangular (lu A).1 with
    | none => simp [inv, hL]
    | some Li =>
      cases hU : invert_upper_triangular (lu A).2.1 with
      | none => simp [inv, hL, hU]
      | some Ui => simp [inv, hL, hU]
  · intro B hB
    rw [mmul_eq_mul, eye_eq_one] at hB
    have hdetA : A.det ≠ 0 := by
      intro h0
      have hdet := congrArg Matrix.det hB
      rw [Matrix.det_mul, h0, zero_mul, Matrix.det_one] at hdet
      exact zero_ne_one hdet
    have hLsome : invert_lower_triangular (lu A).1 ≠ none := by
      intro h
      obtain ⟨i, hi⟩ := (invert_lower_triangular_none_iff (lu A).1).mp h
      exact hi (hLdiag i)
    have hUsome : invert_upper_triangular (lu A).2.1 ≠ none := by
      intro h
      obtain ⟨i, hi⟩ := (invert_upper_triangular_none_iff (lu A).2.1).mp h
      have hdetU : ((lu A).2.1).det = 0 := by
        rw [Matrix.det_of_upperTriangular (fun a b hab => hUlow a b hab)]
        exact Finset.prod_eq_zero (Finset.mem_univ i) hi
      have hdet := congrArg Matrix.det (lu_correct_mul A)
      rw [Matrix.det_mul, Matrix.det_mul, hdetU, mul_zero] at hdet
      exact absurd hdet (mul_ne_zero (lu_P_det_ne_zero A) hdetA)
    obtain ⟨Li, hLi⟩ := Option.ne_none_iff_exists'.mp hLsome
    obtain ⟨Ui, hUi⟩ := Option.ne_none_iff_exists'.mp hUsome
    refine ⟨mmul (mmul Ui Li) (lu A).2.2, hpart2 Li Ui hLi hUi, ?_⟩
    exact hpart3 _ (hpart2 Li Ui hLi hUi)

set_option maxRecDepth 1000000 in
/-- Witness for C7: the spec's example input, whose computed inverse is the
exact rational form of the spec's decimal fixture, multiplies back to the
identity. -/
theorem inv_spec_witness :
    inv (!![(6 : ℚ), 2, 3; 1, 1, 1; 0, 4, 9])
        = some (!![(5 : ℚ)/24, -1/4, -1/24; -3/8, 9/4, -1/8; 1/6, -1, 1/6]) ∧
      mmul (!![(6 : ℚ), 2, 3; 1, 1, 1; 0, 4, 9])
        (!![(5 : ℚ)/24, -1/4, -1/24; -3/8, 9/4, -1/8; 1/6, -1, 1/6]) = eye 3 :=
  have h : inv (!![(6 : ℚ), 2, 3; 1, 1, 1; 0, 4, 9])
      = some (!![(5 : ℚ)/24, -1/4, -1/24; -3/8, 9/4, -1/8; 1/6, -1, 1/6]) :=
    option_eq_some_of_getD _ (eye 3) _ (by with_unfolding_all decide)
      (by with_unfolding_all decide)
  ⟨h, (inv_spec (!![(6 : ℚ), 2, 3; 1, 1, 1; 0, 4, 9])).2.2.1 _ h⟩

/-! ### Checked indexing on the column-major buffer (src/index.rs) -/

/-- Model of `Matrix::as_slice` (src/lib.rs): the column-major buffer of an
`M × N` matrix, of length `M * N`; flat cell `k` is `data[k / M][k % M]`,
the entry at row `k % M`, column `k / M`. -/
def as_slice (M N : ℕ) (A : Matrix (Fin M) (Fin N) ℚ) : List ℚ :=
  List.ofFn fun k : Fin (M * N) =>
    have hk : k.val < M * N := k.isLt
    have hMN : 0 < M * N := Nat.lt_of_le_of_lt (Nat.zero_le _) hk
    have hM : 0 < M := by
      rcases Nat.eq_zero_or_pos M with h0 | h0
      · rw [h0, Nat.zero_mul] at hMN
        exact absurd hMN (lt_irrefl 0)
      · exact h0
    A ⟨k.val % M, Nat.mod_lt _ hM⟩ ⟨k.val / M, Nat.div_lt_of_lt_mul hk⟩

/-- Model of `MatrixIndex::get` at a linear offset (src/index.rs, the
`usize` instance): `matrix.as_slice().get(self)`. -/
def get_lin {M N : ℕ} (A : Matrix (Fin M) (Fin N) ℚ) (k : ℕ) : Option ℚ :=
  (as_slice M N A).get? k

/-- Model of `MatrixIndex::get` at a `(row, col)` pair (src/index.rs, the
`(usize, usize)` instance): `matrix.as_slice().get(self.1 * M + self.0)` —
the bounds check is on the computed flat offset only. -/
def get_pair {M N : ℕ} (A : Matrix (Fin M) (Fin N) ℚ) (r c : ℕ) : Option ℚ :=
  (as_slice M N A).get? (c * M + r)

theorem mod_div_bounds {M N k : ℕ} (h : k < M * N) : k % M < M ∧ k / M < N := by
  have hMN : 0 < M * N := Nat.lt_of_le_of_lt (Nat.zero_le _) h
  have hM : 0 < M := by
    rcases Nat.eq_zero_or_pos M with h0 | h0
    · rw [h0, Nat.zero_mul] at hMN
      exact absurd hMN (lt_irrefl 0)
    · exact h0
  exact ⟨Nat.mod_lt _ hM, Nat.div_lt_of_lt_mul h⟩

theorem get_lin_some {M N : ℕ} (A : Matrix (Fin M) (Fin N) ℚ) (k : ℕ)
    (h : k < M * N) (hr : k % M < M) (hc : k / M < N) :
    get_lin A k = some (A ⟨k % M, hr⟩ ⟨k / M, hc⟩) := by
  rw [get_lin, as_slice, List.get?_ofFn, List.ofFnNthVal, dif_pos h]

theorem get_lin_none {M N : ℕ} (A : Matrix (Fin M) (Fin N) ℚ) (k : ℕ)
    (h : M * N ≤ k) : get_lin A k = none := by
  rw [get_lin, as_slice, List.get?_ofFn, List.ofFnNthVal, dif_neg (by omega)]

/-- **C4 counterexample.** On a 2×3 matrix, the pair `(3, 0)` lies outside
`[0,2) × [0,3)` (row `3 ≥ 2`), yet `get((3,0))` returns the element at flat
offset `0·2 + 3 = 3`, which is in range for the 6-element buffer: the result
is `some 5` (the entry at row 1, column 1), not `none`. -/
theorem get_pair_out_of_range_counterexample :
    ¬ (3 : ℕ) < 2 ∧ get_pair (!![(1 : ℚ), 2, 3; 4, 5, 6]) 3 0 = some 5 := by
  refine ⟨by omega, ?_⟩
  with_unfolding_all decide

/-- **C4 (amended).** Checked access performs its bounds check on the flat
column-major offset: `get(offset)` is `none` exactly when `offset ≥ M·N` and
otherwise yields the buffer element at `offset` (row `offset % M`, column
`offset / M`); `get((row, col))` equals `get(col·M + row)`, so any in-range
pair yields the element at column-major position `col·M + row`, while an
out-of-range pair whose computed offset is below `M·N` yields that buffer
element rather than `none`. -/
theorem get_checked_amended {M N : ℕ} (A : Matrix (Fin M) (Fin N) ℚ)
    (r c k : ℕ) :
    (get_lin A k = none ↔ M * N ≤ k) ∧
      (k < M * N → ∃ (hr : k % M < M) (hc : k / M < N),
        get_lin A k = some (A ⟨k % M, hr⟩ ⟨k / M, hc⟩)) ∧
      (get_pair A r c = get_lin A (c * M + r)) ∧
      (∀ (hr : r < M) (hc : c < N), get_pair A r c = some (A ⟨r, hr⟩ ⟨c, hc⟩)) := by
  refine ⟨⟨?_, get_lin_none A k⟩, ?_, rfl, ?_⟩
  · intro hnone
    by_contra hlt
    obtain ⟨hr, hc⟩ := mod_div_bounds (show k < M * N by omega)
    rw [get_lin_some A k (by omega) hr hc] at hnone
    exact Option.noConfusion hnone
  · intro h
    obtain ⟨hr, hc⟩ := mod_div_bounds h
    exact ⟨hr, hc, get_lin_some A k h hr hc⟩
  · intro hr hc
    have hoff : c * M + r < M * N := by
      calc c * M + r < c * M + M := by omega
        _ = (c + 1) * M := by ring
        _ ≤ N * M := Nat.mul_le_mul_right M hc
        _ = M * N := Nat.mul_comm N M
    have hmod : (c * M + r) % M = r := by
      rw [Nat.mul_comm c M, Nat.mul_add_mod, Nat.mod_eq_of_lt hr]
    have hdiv : (c * M + r) / M = c := by
      rw [Nat.mul_comm c M, Nat.mul_add_div (by omega), Nat.div_eq_of_lt hr,
        Nat.add_zero]
    show get_lin A (c * M + r) = _
    obtain ⟨hr', hc'⟩ := mod_div_bounds hoff
    rw [get_lin_some A (c * M + r) hoff hr' hc']
    have e1 : (⟨(c * M + r) % M, hr'⟩ : Fin M) = ⟨r, hr⟩ := Fin.ext hmod
    have e2 : (⟨(c * M + r) / M, hc'⟩ : Fin N) = ⟨c, hc⟩ := Fin.ext hdiv
    rw [e1, e2]

/-- Witness for C4 (amended): offset `7` on a 2×3 matrix is rejected
(`7 ≥ 6`), while the in-range pair `(1, 2)` yields the element at
column-major offset `2·2 + 1 = 5`. -/
theorem get_checked_amended_witness :
    get_lin (!![(1 : ℚ), 2, 3; 4, 5, 6]) 7 = none ∧
      get_pair (!![(1 : ℚ), 2, 3; 4, 5, 6]) 1 2
        = some ((!![(1 : ℚ), 2, 3; 4, 5, 6]) ⟨1, by omega⟩ ⟨2, by omega⟩) :=
  ⟨(get_checked_amended (!![(1 : ℚ), 2, 3; 4, 5, 6]) 0 0 7).1.mpr (by omega),
    (get_checked_amended (!![(1 : ℚ), 2, 3; 4, 5, 6]) 1 2 0).2.2.2 (by omega) (by omega)⟩

/-! ### Fallible collection (src/new.rs `collect`) -/

/-- The `for _ in 0..(M * N)` loop of `collect` (src/new.rs): the fuel is
the number of cells still to fill, the iterator is modelled as the list of
items it will yield, and `buf` is the prefix of the column-major buffer
already written (`guard.init = buf.length`).  An exhausted iterator aborts
with `Err(guard.init)`. -/
def collect_aux : ℕ → List ℚ → List ℚ → Except ℕ (List ℚ)
  | 0, _, buf => Except.ok buf
  | _ + 1, [], buf => Except.error buf.length
  | fuel + 1, x :: rest, buf => collect_aux fuel rest (buf ++ [x])

/-- Model of `collect` (src/new.rs): pull up to `M * N` items and fill the
matrix in column-major order, so the entry at `(r, c)` is buffer cell
`c·M + r`. -/
def collect (M N : ℕ) (l : List ℚ) : Except ℕ (Matrix (Fin M) (Fin N) ℚ) :=
  (collect_aux (M * N) l []).map fun buf =>
    Matrix.of fun r c => buf.getD (c.val * M + r.val) 0

theorem collect_aux_spec :
    ∀ fuel (l buf : List ℚ), collect_aux fuel l buf
      = if fuel ≤ l.length then Except.ok (buf ++ l.take fuel)
        else Except.error (buf.length + l.length) := by
  intro fuel
  induction fuel with
  | zero =>
    intro l buf
    rw [collect_aux, if_pos (Nat.zero_le _), List.take_zero, List.append_nil]
  | succ fuel ih =>
    intro l buf
    cases l with
    | nil =>
      rw [collect_aux, if_neg (by simp), List.length_nil, Nat.add_zero]
    | cons x rest =>
      rw [collect_aux, ih rest (buf ++ [x])]
      by_cases h : fuel ≤ rest.length
      · rw [if_pos h, if_pos (show fuel + 1 ≤ (x :: rest).length from by
          rw [List.length_cons]; omega), List.take_succ_cons,
          List.append_assoc, List.singleton_append]
      · rw [if_neg h, if_neg (show ¬ fuel + 1 ≤ (x :: rest).length from by
          rw [List.length_cons]; omega)]
        congr 1
        rw [List.length_append, List.length_cons]
        simp only [List.length_nil, List.length_cons]
        omega

theorem collect_eq {M N : ℕ} (l : List ℚ) :
    collect M N l = if M * N ≤ l.length then
        Except.ok (Matrix.of fun r c : _ =>
          (l.take (M * N)).getD (c.val * M + r.val) 0)
      else Except.error l.length := by
  rw [collect, collect_aux_spec]
  by_cases h : M * N ≤ l.length
  · rw [if_pos h, if_pos h, List.nil_append]
    rfl
  · rw [if_neg h, if_neg h, List.length_nil, Nat.zero_add]
    rfl

/-- **C9.** `collect` consumes at most `M·N` items (its result depends only
on the first `M·N` items of the source); a source with fewer than `M·N`
items makes it fail carrying exactly the number of items consumed (its whole
length); a sufficient source yields the matrix whose column-major entry at
position `c·M + r` is the corresponding source item. -/
theorem collect_spec (M N : ℕ) (l : List ℚ) :
    (∀ l' : List ℚ, l.take (M * N) = l'.take (M * N) → collect M N l = collect M N l') ∧
      (l.length < M * N → collect M N l = Except.error l.length) ∧
      (M * N ≤ l.length → ∃ A, collect M N l = Except.ok A ∧
        ∀ (r : Fin M) (c : Fin N), A r c = l.getD (c.val * M + r.val) 0) := by
  refine ⟨?_, ?_, ?_⟩
  · intro l' hl
    have hlen : min (M * N) l.length = min (M * N) l'.length := by
      have := congrArg List.length hl
      rwa [List.length_take, List.length_take] at this
    rw [collect_eq, collect_eq]
    by_cases h : M * N ≤ l.length
    · rw [if_pos h, if_pos (by omega), hl]
    · rw [if_neg h, if_neg (by omega)]
      congr 1
      omega
  · intro h
    rw [collect_eq, if_neg (by omega)]
  · intro h
    rw [collect_eq, if_pos h]
    refine ⟨_, rfl, fun r c => ?_⟩
    show (l.take (M * N)).getD (c.val * M + r.val) 0 = _
    have hoff : c.val * M + r.val < M * N := by
      calc c.val * M + r.val < c.val * M + M := by omega
        _ = (c.val + 1) * M := by ring
        _ ≤ N * M := Nat.mul_le_mul_right M c.isLt
        _ = M * N := Nat.mul_comm N M
    rw [List.getD, List.getD, List.get?_take hoff]

/-- Witness for C9: filling 3×3 from a 5-element source fails reporting 5;
filling 2×2 from a 4-element source succeeds with the column-major layout. -/
theorem collect_spec_witness :
    ((5 : ℕ) < 9 ∧ collect 3 3 [(1 : ℚ), 2, 3, 4, 5] = Except.error 5) ∧
      (∃ A, collect 2 2 [(1 : ℚ), 2, 3, 4] = Except.ok A ∧
        ∀ (r c : Fin 2), A r c = [(1 : ℚ), 2, 3, 4].getD (c.val * 2 + r.val) 0) :=
  ⟨⟨by omega, (collect_spec 3 3 [(1 : ℚ), 2, 3, 4, 5]).2.1 (by decide)⟩,
    (collect_spec 2 2 [(1 : ℚ), 2, 3, 4]).2.2 (by decide)⟩

/-! ### Totality of the decomposition (no failure branch) -/

/-- **C10.** `lu` is total and never signals failure: every square matrix,
including rank-deficient ones, yields a plain `(L, U, P)` triple — the
return type has no failure case, and the elimination step stores the
unguarded quotient `U[r,d] / U[d,d]` with no zero test, as witnessed by the
equation holding for *every* `U`, zero pivots included.  On the all-zero
2×2 matrix — every pivot exactly zero — `lu` still returns `(I, 0, I)`. -/
theorem lu_total {D : ℕ} (A : Mat D) :
    (∃ L U P, lu A = (L, U, P)) ∧
      (∀ (L U : Mat D) (d r : Fin D), d < r →
        (gauss_eliminate L U d).1 r d = U r d / U d d) ∧
      ((lu (!![(0 : ℚ), 0; 0, 0])).1 = eye 2 ∧
        (lu (!![(0 : ℚ), 0; 0, 0])).2.1 = !![(0 : ℚ), 0; 0, 0] ∧
        (lu (!![(0 : ℚ), 0; 0, 0])).2.2 = eye 2) := by
  refine ⟨⟨(lu A).1, (lu A).2.1, (lu A).2.2, rfl⟩, ?_, ?_, ?_, ?_⟩
  · intro L U d r hdr
    show (if d < r ∧ d = d then U r d / U d d else L r d) = _
    rw [if_pos ⟨hdr, rfl⟩]
  · with_unfolding_all decide
  · with_unfolding_all decide
  · with_unfolding_all decide

/-- Witness for C10: the unguarded-division equation holds even at an
exactly-zero pivot (`U[0,0] = 0` on the all-zero matrix). -/
theorem lu_total_witness :
    (0 : Fin 2) < 1 ∧ (gauss_eliminate (eye 2) (!![(0 : ℚ), 0; 0, 0]) 0).1 1 0
      = (!![(0 : ℚ), 0; 0, 0]) 1 0 / (!![(0 : ℚ), 0; 0, 0]) 0 0 :=
  ⟨by decide, (lu_total (eye 2)).2.1 (eye 2) (!![(0 : ℚ), 0; 0, 0]) 0 1 (by decide)⟩

end StackAlgebra
